import Mathlib

/-!
Verification development for the repository's three components:

* `ContentHash` — the content-addressable checksum cache for filesystem
  trees (package `contenthash`).  The implementation of this package is not
  part of the given sources (only its test file is), so the definitions in
  this namespace are modelled from the specification, as indicated on each
  definition.
* `Router` — the reverse proxy request handler (`src/router/main.go`).
* `Llb` — the `EnvList` build-state environment helpers.
-/

namespace ContentHash

/-- A path is a list of path components, e.g. `d0/abc` is `["d0", "abc"]`. -/
abbrev Path := List String

/-- Modelled from the spec: the digest algorithm (spec §4.1) hashes a file's
raw byte content with a fixed cryptographic hash function, and hashes a
directory from its lexicographically ordered list of
`(childName, digestBytes-or-absent-marker)` pairs.  The concrete sha256
function is not part of the given sources; it is modelled as a free
(collision-free) constructor on the hashed data, so `Digest.file c` stands
for `sha256(c)` and `Digest.dir es` for the running hash of the ordered
entry list `es`. -/
inductive Digest where
| file (content : List Nat)
| dir (entries : List (String × Option Digest))

/-- Modelled from the spec (§7): the correctness-affecting checksum errors.
`notFound` is the `errNotFound` cause surfaced for absent paths and broken
symlinks; `tooManyLinks` is the distinct failure for unbounded symlink
chains ("bounded to prevent cycles", spec §4.3). -/
inductive CErr where
| notFound
| tooManyLinks
deriving DecidableEq

/-- A leaf entry of a materialized filesystem: a regular file with byte
content, or a symlink with a target string. -/
inductive FLeaf where
| file (content : List Nat)
| symlink (target : String)

/-- A leaf entry of the cached digest tree: a file node carrying its cached
content digest, or a symlink node carrying its target string (spec §3:
`digest` for files, `linkname` for symlinks). -/
inductive CLeaf where
| file (d : Digest)
| symlink (target : String)

mutual
/-- Modelled from the spec (§3, Tree Node Store): a node is a leaf (file or
symlink payload `α`) or a directory owning a name-keyed list of children. -/
inductive Tree (α : Type) where
| leaf (a : α)
| dir (ch : Children α)
/-- The children of a directory node, kept in lexicographic name order by
construction (spec §3: "iteration for hashing always lexicographic"). -/
inductive Children (α : Type) where
| nil
| cons (n : String) (t : Tree α) (rest : Children α)
end

/-- Lexicographic order on character lists, by code point. -/
def charsLt : List Char → List Char → Bool
| [], [] => false
| [], _ :: _ => true
| _ :: _, [] => false
| a :: as, b :: bs =>
  if a.toNat < b.toNat then true
  else if b.toNat < a.toNat then false
  else charsLt as bs

/-- Lexicographic order on strings (used to keep children sorted). -/
def strLt (a b : String) : Bool := charsLt a.data b.data

/-- Look a child up by name. -/
def lookupCh {α : Type} : Children α → String → Option (Tree α)
| .nil, _ => none
| .cons m t rest, n => if n = m then some t else lookupCh rest n

/-- Insert or replace the child named `n`, keeping the list sorted when it
already is (spec §3: "insertion order irrelevant"). -/
def insertCh {α : Type} : Children α → String → Tree α → Children α
| .nil, n, v => .cons n v .nil
| .cons m t rest, n, v =>
  if n = m then .cons n v rest
  else if strLt n m then .cons n v (.cons m t rest)
  else .cons m t (insertCh rest n v)

/-- Remove every child named `n` (a name occurs at most once in a tree kept
as a name-keyed mapping). -/
def removeCh {α : Type} : Children α → String → Children α
| .nil, _ => .nil
| .cons m t rest, n => if n = m then removeCh rest n else .cons m t (removeCh rest n)

/-- Number of children. -/
def numCh {α : Type} : Children α → Nat
| .nil => 0
| .cons _ _ rest => numCh rest + 1

/-- Pure path lookup: descend through directories by literal component
names; no symlink resolution. -/
def getNode {α : Type} : Tree α → Path → Option (Tree α)
| t, [] => some t
| .dir ch, n :: rest =>
  (match lookupCh ch n with
   | some c => getNode c rest
   | none => none)
| .leaf _, _ :: _ => none

/-- Set the node at a path, creating it as the final child; fails when an
intermediate component is missing or not a directory (events arrive
parent-first, spec §4.4). -/
def setAt {α : Type} : Tree α → Path → Tree α → Option (Tree α)
| _, [], v => some v
| .dir ch, n :: rest, v =>
  (match rest with
   | [] => some (.dir (insertCh ch n v))
   | _ :: _ =>
     match lookupCh ch n with
     | some c => (setAt c rest v).map (fun c2 => .dir (insertCh ch n c2))
     | none => none)
| .leaf _, _ :: _, _ => none

/-- Remove the node (and hence its whole subtree) at a path (spec §4.4,
Delete: "remove the Node (and its subtree) from its parent's children"). -/
def removeAt {α : Type} : Tree α → Path → Option (Tree α)
| _, [] => none
| .dir ch, n :: rest =>
  (match rest with
   | [] => some (.dir (removeCh ch n))
   | _ :: _ =>
     match lookupCh ch n with
     | some c => (removeAt c rest).map (fun c2 => .dir (insertCh ch n c2))
     | none => none)
| .leaf _, _ :: _ => none

/-- Hash one filesystem leaf: a file's digest is a function of its byte
content only (spec invariant 2); a symlink keeps its target string (its
digest is defined by resolution, spec invariant 3). -/
def hashLeaf : FLeaf → CLeaf
| .file content => .file (.file content)
| .symlink t => .symlink t

mutual
/-- Modelled from the spec (§4.3 Scanner): scanning a materialized
filesystem yields the digest tree whose file leaves carry the content hash
and whose structure mirrors the filesystem. -/
def hashTree : Tree FLeaf → Tree CLeaf
| .leaf a => .leaf (hashLeaf a)
| .dir ch => .dir (hashChildren ch)
/-- Children part of `hashTree`. -/
def hashChildren : Children FLeaf → Children CLeaf
| .nil => .nil
| .cons n t rest => .cons n (hashTree t) (hashChildren rest)
end

/-- Split a character list at `/` separators. -/
def splitChars (cs : List Char) (cur : List Char) : List (List Char) :=
  match cs with
  | [] => [cur.reverse]
  | c :: rest => if c = '/' then cur.reverse :: splitChars rest [] else splitChars rest (c :: cur)

/-- Split a symlink target (or path) string into components, dropping empty
ones. -/
def splitTarget (t : String) : Path :=
  ((splitChars t.data []).filter (fun l => ¬ l.isEmpty)).map (fun l => String.mk l)

/-- Modelled from the spec (§4.3 step 1): resolve a path against the tree,
following symlinks in intermediate components (a symlink target is
interpreted relative to the directory containing the link); the final
component is not resolved.  `acc` is the already-resolved directory prefix,
`rest` the remaining components.  Fuel bounds chained symlinks ("bounded to
prevent cycles"); exhaustion gives the distinct `tooManyLinks` failure. -/
def canon : Nat → Tree CLeaf → Path → Path → Except CErr Path
| 0, _, _, _ => .error .tooManyLinks
| _ + 1, _, acc, [] => .ok acc
| fuel + 1, root, acc, n :: rest =>
  match getNode root (acc ++ [n]) with
  | none => .error .notFound
  | some node =>
    match rest with
    | [] => .ok (acc ++ [n])
    | _ :: _ =>
      match node with
      | .dir _ => canon fuel root (acc ++ [n]) rest
      | .leaf (.symlink t) => canon fuel root acc (splitTarget t ++ rest)
      | .leaf (.file _) => .error .notFound

/-- Every component of the path leads to a directory node (used to state
which paths are plain directory paths, free of symlink indirection). -/
def dirsOnly : Tree CLeaf → Path → Bool
| _, [] => true
| .dir ch, n :: rest =>
  (match lookupCh ch n with
   | some (.dir ch2) => dirsOnly (.dir ch2) rest
   | _ => false)
| .leaf _, _ :: _ => false

/-- Modelled from the spec (invariant 1): build the ordered
`(childName, digest-or-absent)` entry list of a directory.  A child whose
digest computation fails with `notFound` (a broken symlink) contributes its
name with an absent digest; a fuel failure aborts. -/
def childEntries (f : String → Except CErr Digest) : Children CLeaf → Except CErr (List (String × Option Digest))
| .nil => .ok []
| .cons n _ rest =>
  match f n with
  | .error .tooManyLinks => .error .tooManyLinks
  | .error .notFound =>
    (match childEntries f rest with
     | .ok es => .ok ((n, none) :: es)
     | .error e => .error e)
  | .ok d =>
    (match childEntries f rest with
     | .ok es => .ok ((n, some d) :: es)
     | .error e => .error e)

/-- Modelled from the spec (§4.3 steps 2–4): the digest of the node at an
already-resolved path.  A file node yields its content digest; a symlink
yields the digest of its resolved target (`notFound` when broken, spec
invariant 3); a directory yields the directory hash of its ordered child
entry list (spec invariant 1). -/
def nodeDigest : Nat → Tree CLeaf → Path → Except CErr Digest
| 0, _, _ => .error .tooManyLinks
| fuel + 1, root, p =>
  match getNode root p with
  | none => .error .notFound
  | some (.leaf (.file d)) => .ok d
  | some (.leaf (.symlink t)) =>
    (match canon fuel root p.dropLast (splitTarget t) with
     | .error e => .error e
     | .ok q => nodeDigest fuel root q)
  | some (.dir ch) =>
    (match childEntries (fun n => nodeDigest fuel root (p ++ [n])) ch with
     | .error e => .error e
     | .ok es => .ok (.dir es))

/-- Modelled from the spec (§6 `Checksum`): resolve the path, then compute
the digest of the resolved node. -/
def Checksum (fuel : Nat) (root : Tree CLeaf) (p : Path) : Except CErr Digest :=
  match canon fuel root [] p with
  | .error e => .error e
  | .ok q => nodeDigest fuel root q

/-- Modelled from the spec: checksumming a path of a materialized
filesystem reference — scan (hash) the filesystem and compute the digest. -/
def ChecksumFS (fuel : Nat) (fs : Tree FLeaf) (p : Path) : Except CErr Digest :=
  Checksum fuel (hashTree fs) p

/-- The kind of a change event (spec §6, change event boundary). -/
inductive ChangeKind where
| add
| modify
| delete
deriving DecidableEq

/-- The payload of a change event: the file info of the entry at the path. -/
inductive NodeSpec where
| file (content : List Nat)
| dir
| symlink (target : String)

/-- One change event of the ordered change stream. -/
structure Change where
  kind : ChangeKind
  path : Path
  spec : NodeSpec

/-- The empty materialized filesystem (an empty root directory). -/
def emptyFS : Tree FLeaf := .dir .nil

/-- The cache tree of a freshly constructed Cache Context: a single
unscanned root directory node (spec §3, Lifecycle). -/
def emptyCC : Tree CLeaf := .dir .nil

/-- Modelled from the test helper `writeChanges`: materialize one `Add`
change on the filesystem (create a file with content, make a directory,
or create a symlink); creating a directory or symlink over an existing
entry fails, and non-`Add` changes are not materialized. -/
def writeChange (t : Tree FLeaf) (c : Change) : Option (Tree FLeaf) :=
  match c.kind with
  | .add =>
    (match c.spec with
     | .file content => setAt t c.path (.leaf (.file content))
     | .dir =>
       match getNode t c.path with
       | none => setAt t c.path (.dir .nil)
       | some _ => none
     | .symlink tg =>
       match getNode t c.path with
       | none => setAt t c.path (.leaf (.symlink tg))
       | some _ => none)
  | _ => some t

/-- Materialize an ordered change stream, in order (spec §4.4). -/
def writeChanges : Tree FLeaf → List Change → Option (Tree FLeaf)
| t, [] => some t
| t, c :: cs =>
  match writeChange t c with
  | some t2 => writeChanges t2 cs
  | none => none

/-- Modelled from the spec (§4.4 Change Applier): apply one event to the
cached digest tree.  `Delete` removes the node and its subtree; `Add` and
`Modify` create or replace the node, storing the precomputed digest the
event carries for a file directly ("store that digest directly"); an added
directory node keeps children that were separately added before it was
re-announced. -/
def HandleChange (t : Tree CLeaf) (c : Change) : Option (Tree CLeaf) :=
  match c.kind with
  | .delete => removeAt t c.path
  | _ =>
    (match c.spec with
     | .file content => setAt t c.path (.leaf (.file (.file content)))
     | .symlink tg => setAt t c.path (.leaf (.symlink tg))
     | .dir =>
       match getNode t c.path with
       | some (.dir _) => some t
       | _ => setAt t c.path (.dir .nil))

/-- Apply an ordered event stream, strictly in arrival order (spec §5). -/
def handleChanges : Tree CLeaf → List Change → Option (Tree CLeaf)
| t, [] => some t
| t, c :: cs =>
  match HandleChange t c with
  | some t2 => handleChanges t2 cs
  | none => none

/-- Modelled from the spec (§4.6): one element of the serialized form of a
digest tree stored in the durable keyed blob store. -/
inductive Blob where
| file (d : Digest)
| symlink (target : String)
| dirOpen
| name (n : String)
| dirClose

mutual
/-- Serialize a digest tree to a flat blob stream (spec §4.6: "serializes a
Cache Context's digest tree into durable storage"). -/
def encT : Tree CLeaf → List Blob
| .leaf (.file d) => [.file d]
| .leaf (.symlink t) => [.symlink t]
| .dir ch => .dirOpen :: (encCh ch ++ [.dirClose])
/-- Children part of `encT`. -/
def encCh : Children CLeaf → List Blob
| .nil => []
| .cons n t rest => .name n :: (encT t ++ encCh rest)
end

mutual
/-- Structural size of a digest tree (recorded with the serialized form so
the decoder's recursion is bounded). -/
def sizeT : Tree CLeaf → Nat
| .leaf _ => 1
| .dir ch => sizeCh ch + 1
/-- Children part of `sizeT`. -/
def sizeCh : Children CLeaf → Nat
| .nil => 1
| .cons _ t rest => sizeT t + sizeCh rest + 1
end

mutual
/-- Decode one tree from a blob stream, returning the remaining stream. -/
def decT : Nat → List Blob → Option (Tree CLeaf × List Blob)
| 0, _ => none
| fuel + 1, bs =>
  match bs with
  | .file d :: rest => some (.leaf (.file d), rest)
  | .symlink t :: rest => some (.leaf (.symlink t), rest)
  | .dirOpen :: rest =>
    (match decCh fuel rest with
     | some (ch, .dirClose :: rest2) => some (.dir ch, rest2)
     | _ => none)
  | _ => none
/-- Decode a children list from a blob stream, stopping at the first
element that does not start a named child. -/
def decCh : Nat → List Blob → Option (Children CLeaf × List Blob)
| 0, _ => none
| fuel + 1, bs =>
  match bs with
  | .name n :: rest =>
    (match decT fuel rest with
     | some (t, rest2) =>
       match decCh fuel rest2 with
       | some (ch, rest3) => some (.cons n t ch, rest3)
       | none => none
     | none => none)
  | _ => some (.nil, bs)
end

/-- Whether a blob stream does not begin with a named child entry (the
decoder of a children list stops exactly on such streams). -/
def headOk : List Blob → Bool
| .name _ :: _ => false
| _ => true

/-- Modelled from the spec (§6, durable store boundary): a keyed blob store
(get/put by reference identity). -/
def Store := List (String × (Nat × List Blob))

/-- Get a stored blob by reference identity. -/
def storeGet : Store → String → Option (Nat × List Blob)
| [], _ => none
| (k, v) :: rest, id => if id = k then some v else storeGet rest id

/-- Modelled from the spec (§4.6): save a Cache Context's digest tree into
durable storage keyed by the reference's identity. -/
def saveTree (id : String) (t : Tree CLeaf) (s : Store) : Store :=
  (id, (sizeT t, encT t)) :: s

/-- Modelled from the spec (§4.6): on Cache Context construction, load the
previously saved digest tree keyed by the reference's identity. -/
def loadTree (id : String) (s : Store) : Option (Tree CLeaf) :=
  match storeGet s id with
  | some (fuel, bs) =>
    (match decT fuel bs with
     | some (t, []) => some t
     | _ => none)
  | none => none

/-!  Concrete trees and change streams mirroring the test scenarios
(`TestChecksumBasicFile`, `TestHandleChange`); `[0]`, `[1]`, `[2]` stand
for the byte contents `data0`, `data1`, `data2`. -/

/-- The change stream of the first reference of the tests. -/
def streamA : List Change :=
  [⟨.add, ["foo"], .file [0]⟩,
   ⟨.add, ["bar"], .file [1]⟩,
   ⟨.add, ["d0"], .dir⟩,
   ⟨.add, ["d0", "abc"], .file [0]⟩,
   ⟨.add, ["d0", "def"], .symlink ("abc")⟩,
   ⟨.add, ["d0", "ghi"], .symlink ("nosuchfile")⟩]

/-- The change stream of the second reference (the content of `d0`
materialized directly at the root). -/
def streamB : List Change :=
  [⟨.add, ["abc"], .file [0]⟩,
   ⟨.add, ["def"], .symlink ("abc")⟩,
   ⟨.add, ["ghi"], .symlink ("nosuchfile")⟩]

/-- Two files added in one order... -/
def streamP1 : List Change :=
  [⟨.add, ["b"], .file [1]⟩, ⟨.add, ["a"], .file [0]⟩]

/-- ...and the same two files added in the opposite order. -/
def streamP2 : List Change :=
  [⟨.add, ["a"], .file [0]⟩, ⟨.add, ["b"], .file [1]⟩]

/-- The cached digest tree of the first reference. -/
def cTreeA : Tree CLeaf :=
  .dir (.cons ("bar") (.leaf (.file (.file [1])))
       (.cons ("d0") (.dir (.cons ("abc") (.leaf (.file (.file [0])))
                           (.cons ("def") (.leaf (.symlink ("abc")))
                           (.cons ("ghi") (.leaf (.symlink ("nosuchfile"))) .nil))))
       (.cons ("foo") (.leaf (.file (.file [0]))) .nil)))

/-- The cached digest tree of the second reference. -/
def cTreeB : Tree CLeaf :=
  .dir (.cons ("abc") (.leaf (.file (.file [0])))
       (.cons ("def") (.leaf (.symlink ("abc")))
       (.cons ("ghi") (.leaf (.symlink ("nosuchfile"))) .nil)))

/-- `cTreeA` after the `Delete` event for the directory `d0`. -/
def cTreeA2 : Tree CLeaf :=
  .dir (.cons ("bar") (.leaf (.file (.file [1])))
       (.cons ("foo") (.leaf (.file (.file [0]))) .nil))

/-- `cTreeB` with the broken symlink `ghi` removed. -/
def cTreeB2 : Tree CLeaf :=
  .dir (.cons ("abc") (.leaf (.file (.file [0])))
       (.cons ("def") (.leaf (.symlink ("abc"))) .nil))

/-- The digest of the `d0` directory (and of the second reference's root):
`(abc, data0-digest)`, `(def, data0-digest)`, `(ghi, absent)`. -/
def dgstDirD0 : Digest :=
  .dir [("abc", some (.file [0])), ("def", some (.file [0])), ("ghi", none)]

/-- The digest of the directory after the broken symlink was removed. -/
def dgstDirD0Modified : Digest :=
  .dir [("abc", some (.file [0])), ("def", some (.file [0]))]

end ContentHash

namespace Router

/-- The index of the first `.` in a character list, if any. -/
def idxOfDot : List Char → Option Nat
| [] => none
| c :: rest => if c = '.' then some 0 else (idxOfDot rest).map (fun i => i + 1)

/-- `strings.Index(host, ".")`: the index of the first `.`, or `-1` when
there is none (`src/router/main.go:60`). -/
def strIndexDot (s : String) : Int :=
  match idxOfDot s.data with
  | some i => (i : Int)
  | none => -1

/-- A Go slice expression `s[lo:hi]`: defined only when
`0 ≤ lo ≤ hi ≤ len(s)`, otherwise the program panics (modelled as `none`). -/
def goSlice (s : String) (lo hi : Int) : Option (List Char) :=
  if 0 ≤ lo ∧ lo ≤ hi ∧ hi ≤ (s.data.length : Int) then
    some ((s.data.drop lo.toNat).take (hi - lo).toNat)
  else none

/-- The observable outcome of one request through the handler, up to the
upstream call: whether a 400 status was written for an empty Host, and the
proxy target path (`none` when the handler panics before building it). -/
structure Outcome where
  wrote400 : Bool
  target : Option String

/-- The request handler returned by `makeHandler`
(`src/router/main.go:49-60`): writes 400 on an empty Host (without
returning), strips a leading `/` from the request URI, and builds the
upstream path from `r.Host[0:strings.Index(r.Host, ".")]`. -/
def makeHandler (upstreamURL host requestURI : String) : Outcome :=
  let w := decide (host.length = 0)
  let uri := if requestURI.startsWith ("/") then requestURI.drop 1 else requestURI
  match goSlice host 0 (strIndexDot host) with
  | none => ⟨w, none⟩
  | some pre =>
    ⟨w, some (upstreamURL ++ "function/" ++ String.mk pre ++ "-" ++ uri)⟩

end Router

namespace Llb

/-- One environment entry (`src/unnamed/part_001:95-98`). -/
structure KeyValue where
  key : String
  value : String
deriving DecidableEq

/-- `EnvList` (`src/unnamed/part_001:93`). -/
abbrev EnvList := List KeyValue

/-- `EnvList.Index` (`src/unnamed/part_001:121-128`): the index of the
first entry with the given key; Go's `(-1, false)` is modelled as `none`. -/
def EnvList.Index : EnvList → String → Option Nat
| [], _ => none
| kv :: rest, k =>
  if kv.key = k then some 0 else (EnvList.Index rest k).map (fun i => i + 1)

/-- `EnvList.Get` (`src/unnamed/part_001:114-119`). -/
def EnvList.Get (e : EnvList) (k : String) : String × Bool :=
  match EnvList.Index e k with
  | some i => ((e.getD i ⟨"", ""⟩).value, true)
  | none => ("", false)

/-- `EnvList.Delete` (`src/unnamed/part_001:106-112`): copies the list,
then removes the entry at the index found by `Index` (the first entry with
the key), if any.  The value-level result of
`append(e[:i], e[i+1:]...)` on the copy is `take i ++ drop (i+1)`. -/
def EnvList.Delete (e : EnvList) (k : String) : EnvList :=
  match EnvList.Index e k with
  | some i => e.take i ++ e.drop (i + 1)
  | none => e

/-- `EnvList.AddOrReplace` (`src/unnamed/part_001:100-104`). -/
def EnvList.AddOrReplace (e : EnvList) (k v : String) : EnvList :=
  EnvList.Delete e k ++ [⟨k, v⟩]

/-- The number of entries with the given key. -/
def countKey (e : EnvList) (k : String) : Nat :=
  (e.filter (fun kv => kv.key = k)).length

end Llb

namespace Llb

/-- Recursion equation for `EnvList.Delete`: it removes exactly the first
entry carrying the key. -/
theorem Delete_cons (kv : KeyValue) (rest : EnvList) (k : String) :
    EnvList.Delete (kv :: rest) k
      = if kv.key = k then rest else kv :: EnvList.Delete rest k := by
  by_cases h : kv.key = k
  · simp [EnvList.Delete, EnvList.Index, h]
  · simp only [EnvList.Delete, EnvList.Index, h, if_neg, if_false]
    cases hi : EnvList.Index rest k with
    | none => simp [hi]
    | some i => simp [hi, List.take_succ_cons, List.drop_succ_cons]

/-- Recursion equation for `EnvList.Get`: it returns the value of the first
entry carrying the key. -/
theorem Get_cons (kv : KeyValue) (rest : EnvList) (k : String) :
    EnvList.Get (kv :: rest) k
      = if kv.key = k then (kv.value, true) else EnvList.Get rest k := by
  by_cases h : kv.key = k
  · simp [EnvList.Get, EnvList.Index, h]
  · simp only [EnvList.Get, EnvList.Index, h, if_neg, if_false]
    cases hi : EnvList.Index rest k with
    | none => simp [hi]
    | some i => simp [hi, List.getD_cons_succ]

theorem countKey_cons (kv : KeyValue) (rest : EnvList) (k : String) :
    countKey (kv :: rest) k
      = if kv.key = k then countKey rest k + 1 else countKey rest k := by
  by_cases h : kv.key = k <;> simp [countKey, List.filter_cons, h]

theorem countKey_append (a b : EnvList) (k : String) :
    countKey (a ++ b) k = countKey a k + countKey b k := by
  simp [countKey, List.filter_append]

/-- Deleting the key from a list containing it at most once leaves no entry
with that key. -/
theorem countKey_Delete_eq_zero (e : EnvList) (k : String)
    (h : countKey e k ≤ 1) : countKey (EnvList.Delete e k) k = 0 := by
  induction e with
  | nil => simp [EnvList.Delete, EnvList.Index, countKey]
  | cons kv rest ih =>
    rw [Delete_cons]
    by_cases hk : kv.key = k
    · rw [countKey_cons] at h
      simp only [hk, if_pos, if_true] at h ⊢
      omega
    · rw [countKey_cons] at h
      simp only [hk, if_neg, if_false] at h ⊢
      rw [countKey_cons]
      simp only [hk, if_neg, if_false]
      exact ih h

/-- Looking up a key finds the appended final entry when no earlier entry
carries the key. -/
theorem Get_append_single (a : EnvList) (k v : String)
    (h : countKey a k = 0) : EnvList.Get (a ++ [⟨k, v⟩]) k = (v, true) := by
  induction a with
  | nil => simp [Get_cons, EnvList.Get, EnvList.Index]
  | cons kv rest ih =>
    rw [countKey_cons] at h
    by_cases hk : kv.key = k
    · simp [hk] at h
    · simp only [hk, if_neg, if_false] at h
      rw [List.cons_append, Get_cons]
      simp only [hk, if_neg, if_false]
      exact ih h

/-- Looking up a different key ignores the appended final entry unless the
list has no entry for it at all, in which case both lookups fail. -/
theorem Get_append_single_ne (a : EnvList) (k v k2 : String)
    (h : k2 ≠ k) : EnvList.Get (a ++ [⟨k, v⟩]) k2 = EnvList.Get a k2 := by
  induction a with
  | nil =>
    rw [List.nil_append, Get_cons]
    rw [if_neg (fun hh => h (Eq.symm hh))]
  | cons kv rest ih =>
    rw [List.cons_append, Get_cons, Get_cons, ih]

/-- Deleting one key leaves lookups of every other key unchanged. -/
theorem Get_Delete_ne (e : EnvList) (k k2 : String) (h : k2 ≠ k) :
    EnvList.Get (EnvList.Delete e k) k2 = EnvList.Get e k2 := by
  induction e with
  | nil => simp [EnvList.Delete, EnvList.Index]
  | cons kv rest ih =>
    rw [Delete_cons]
    by_cases hk : kv.key = k
    · rw [if_pos hk, Get_cons]
      have hne : ¬ kv.key = k2 := by
        rw [hk]
        exact fun hh => h (Eq.symm hh)
      rw [if_neg hne]
    · rw [if_neg hk, Get_cons, Get_cons, ih]

/-- Deleting one key preserves the sublist of entries with other keys. -/
theorem filter_Delete (e : EnvList) (k : String) :
    (EnvList.Delete e k).filter (fun kv => ! decide (kv.key = k))
      = e.filter (fun kv => ! decide (kv.key = k)) := by
  induction e with
  | nil => simp [EnvList.Delete, EnvList.Index]
  | cons kv rest ih =>
    rw [Delete_cons]
    by_cases hk : kv.key = k
    · rw [if_pos hk, List.filter_cons]
      simp [hk]
    · rw [if_neg hk, List.filter_cons, List.filter_cons]
      simp [hk, ih]

end Llb

namespace Llb

/-- C10 (counterexample): the claimed equation
`Get (AddOrReplace e k v) k = (v, true)` fails at the concrete list
`[{A, x}, {A, y}]` with `k = "A"`, `v = "z"`: `Delete` removes only the
first entry with the key, so the stale second entry shadows the newly
appended one and `Get` returns `("y", true)`. -/
theorem addOrReplace_counterexample :
    ¬ EnvList.Get (EnvList.AddOrReplace [⟨"A", "x"⟩, ⟨"A", "y"⟩] ("A") ("z")) ("A")
      = ("z", true) := by
  decide

/-- C10 (amended): for every `EnvList` `e` in which at most one entry
carries the key `k` (as is the case for every list maintained through
`AddOrReplace`), `Get (AddOrReplace e k v) k` returns `(v, true)`, the
entry for `k` occurs exactly once, namely as the last element, and both the
lookups and the sublist of entries with other keys are preserved. -/
theorem addOrReplace_spec_unique_key (e : EnvList) (k v : String)
    (h : countKey e k ≤ 1) :
    EnvList.Get (EnvList.AddOrReplace e k v) k = (v, true)
    ∧ countKey (EnvList.AddOrReplace e k v) k = 1
    ∧ (EnvList.AddOrReplace e k v).getLast? = some ⟨k, v⟩
    ∧ (∀ k2, k2 ≠ k →
        EnvList.Get (EnvList.AddOrReplace e k v) k2 = EnvList.Get e k2)
    ∧ (EnvList.AddOrReplace e k v).filter (fun kv => ! decide (kv.key = k))
        = e.filter (fun kv => ! decide (kv.key = k)) := by
  have hz : countKey (EnvList.Delete e k) k = 0 := countKey_Delete_eq_zero e k h
  refine ⟨Get_append_single _ k v hz, ?_, ?_, ?_, ?_⟩
  · rw [EnvList.AddOrReplace, countKey_append, hz]
    simp [countKey, List.filter_cons]
  · exact List.getLast?_concat _
  · intro k2 hne
    rw [EnvList.AddOrReplace, Get_append_single_ne _ k v k2 hne,
      Get_Delete_ne e k k2 hne]
  · rw [EnvList.AddOrReplace, List.filter_append, filter_Delete]
    simp [List.filter_cons]

/-- C10 (witness): the amended statement at the concrete list `[{B, 1}]`. -/
theorem addOrReplace_spec_unique_key_witness :
    EnvList.Get (EnvList.AddOrReplace [⟨"B", "1"⟩] ("A") ("2")) ("A") = ("2", true) :=
  (addOrReplace_spec_unique_key [⟨"B", "1"⟩] "A" "2" (by decide)).1

end Llb

namespace Router

/-- A character list without a dot has no dot index. -/
theorem idxOfDot_eq_none (l : List Char) (h : ∀ ch ∈ l, ch ≠ '.') :
    idxOfDot l = none := by
  induction l with
  | nil => rfl
  | cons c rest ih =>
    have hc : ¬ c = '.' := h c (List.mem_cons_self c rest)
    rw [idxOfDot, if_neg hc, ih (fun ch hm => h ch (List.mem_cons_of_mem c hm))]
    rfl

/-- C9: the request handler is not total.  For every request whose Host
header contains no `.` character, `strings.Index` returns `-1`, so the
slice expression `r.Host[0:strings.Index(r.Host, ".")]` violates the slice
bounds and the handler panics before producing an upstream request; in
particular, for the empty Host the handler writes a 400 status but does not
return, and still panics. -/
theorem makeHandler_panics_on_dotless_host (up host uri : String)
    (h : ∀ ch ∈ host.data, ch ≠ '.') :
    strIndexDot host = -1
    ∧ (makeHandler up host uri).target = none
    ∧ (host = "" → (makeHandler up host uri).wrote400 = true) := by
  have hidx : strIndexDot host = -1 := by
    rw [strIndexDot, idxOfDot_eq_none host.data h]
  refine ⟨hidx, ?_, ?_⟩
  · rw [makeHandler, hidx]
    have hneg : ¬ ((0 : Int) ≤ 0 ∧ (0 : Int) ≤ -1 ∧ (-1 : Int) ≤ (host.data.length : Int)) := by
      intro hcon
      omega
    rw [goSlice, if_neg hneg]
  · intro he
    rw [makeHandler]
    simp only [he]
    split <;> rfl

/-- C9 (witness): the handler panics on the concrete dot-less Host
`localhost` even though the upstream URL and request URI are well-formed. -/
theorem makeHandler_panics_on_dotless_host_witness :
    (makeHandler ("http://gateway:8080/") ("localhost") ("/echo")).target = none :=
  (makeHandler_panics_on_dotless_host "http://gateway:8080/" "localhost" "/echo"
    (by decide)).2.1

end Router


namespace ContentHash

theorem getNode_nil {α : Type} (t : Tree α) : getNode t [] = some t := by
  cases t <;> rfl

theorem lookup_insert {α : Type} (n : String) (v : Tree α) :
    ∀ ch : Children α, lookupCh (insertCh ch n v) n = some v
| .nil => by simp [insertCh, lookupCh]
| .cons m t rest => by
  rw [insertCh]
  by_cases h : n = m
  · rw [if_pos h, lookupCh, if_pos rfl]
  · rw [if_neg h]
    by_cases h2 : strLt n m = true
    · rw [if_pos h2, lookupCh, if_pos rfl]
    · rw [if_neg h2, lookupCh, if_neg h, lookup_insert n v rest]

theorem lookup_insert_ne {α : Type} (n : String) (v : Tree α) (m : String)
    (h : m ≠ n) :
    ∀ ch : Children α, lookupCh (insertCh ch n v) m = lookupCh ch m
| .nil => by
  rw [insertCh]
  show (if m = n then some v else lookupCh Children.nil m) = lookupCh Children.nil m
  rw [if_neg h]
| .cons k t rest => by
  rw [insertCh]
  by_cases hk : n = k
  · rw [if_pos hk, lookupCh, if_neg (hk ▸ h), lookupCh,
      if_neg (fun hm => h (hm.trans hk.symm))]
  · rw [if_neg hk]
    by_cases h2 : strLt n k = true
    · rw [if_pos h2, lookupCh, if_neg h]
    · rw [if_neg h2, lookupCh, lookupCh]
      by_cases hm : m = k
      · rw [if_pos hm, if_pos hm]
      · rw [if_neg hm, if_neg hm, lookup_insert_ne n v m h rest]

theorem lookup_removeCh {α : Type} (n : String) :
    ∀ ch : Children α, lookupCh (removeCh ch n) n = none
| .nil => rfl
| .cons m t rest => by
  rw [removeCh]
  by_cases h : n = m
  · rw [if_pos h, lookup_removeCh n rest]
  · rw [if_neg h, lookupCh, if_neg h, lookup_removeCh n rest]

theorem numCh_removeCh_le {α : Type} (n : String) :
    ∀ ch : Children α, numCh (removeCh ch n) ≤ numCh ch
| .nil => Nat.le_refl 0
| .cons m t rest => by
  rw [removeCh]
  by_cases h : n = m
  · rw [if_pos h, numCh]
    exact Nat.le_trans (numCh_removeCh_le n rest) (Nat.le_succ _)
  · rw [if_neg h, numCh, numCh]
    exact Nat.succ_le_succ (numCh_removeCh_le n rest)

theorem numCh_removeCh_lt {α : Type} (n : String) :
    ∀ ch : Children α, (lookupCh ch n).isSome = true →
      numCh (removeCh ch n) < numCh ch
| .nil => by
  intro h
  simp [lookupCh] at h
| .cons m t rest => by
  intro h
  rw [removeCh, numCh]
  by_cases hm : n = m
  · rw [if_pos hm]
    exact Nat.lt_succ_of_le (numCh_removeCh_le n rest)
  · rw [lookupCh, if_neg hm] at h
    rw [if_neg hm, numCh]
    exact Nat.succ_lt_succ (numCh_removeCh_lt n rest h)

theorem childEntries_ok_length (f : String → Except CErr Digest) :
    ∀ (ch : Children CLeaf) (es : List (String × Option Digest)),
      childEntries f ch = .ok es → es.length = numCh ch
| .nil => by
  intro es h
  rw [childEntries] at h
  cases h
  rfl
| .cons n t rest => by
  intro es h
  rw [childEntries] at h
  cases hf : f n with
  | ok d =>
    rw [hf] at h
    cases hr : childEntries f rest with
    | ok es2 =>
      rw [hr] at h
      cases h
      rw [List.length_cons, numCh, childEntries_ok_length f rest es2 hr]
    | error e =>
      rw [hr] at h
      cases h
  | error e =>
    rw [hf] at h
    cases e with
    | notFound =>
      cases hr : childEntries f rest with
      | ok es2 =>
        rw [hr] at h
        cases h
        rw [List.length_cons, numCh, childEntries_ok_length f rest es2 hr]
      | error e2 =>
        rw [hr] at h
        cases h
    | tooManyLinks => cases h

theorem getNode_append {α : Type} (p q : Path) (t : Tree α) :
    getNode t (p ++ q) = (getNode t p).bind (fun s => getNode s q) := by
  induction p generalizing t with
  | nil => rw [List.nil_append, getNode_nil, Option.some_bind]
  | cons n p2 ih =>
    cases t with
    | leaf a => rw [List.cons_append, getNode, getNode, Option.none_bind]
    | dir ch =>
      rw [List.cons_append, getNode, getNode]
      cases lookupCh ch n with
      | none => rw [Option.none_bind]
      | some c => exact ih c

theorem getNode_concat_some {α : Type} (t : Tree α) (p : Path) (c : String)
    (v : Tree α) (h : getNode t (p ++ [c]) = some v) :
    ∃ ch, getNode t p = some (.dir ch) ∧ lookupCh ch c = some v := by
  rw [getNode_append] at h
  cases hg : getNode t p with
  | none =>
    rw [hg, Option.none_bind] at h
    cases h
  | some s =>
    rw [hg, Option.some_bind] at h
    cases s with
    | leaf a =>
      rw [getNode] at h
      cases h
    | dir ch =>
      rw [getNode] at h
      cases hl : lookupCh ch c with
      | none =>
        rw [hl] at h
        cases h
      | some c2 =>
        rw [hl] at h
        have h2 : getNode c2 [] = some v := h
        rw [getNode_nil] at h2
        cases h2
        exact ⟨ch, rfl, hl⟩

theorem dirsOnly_of_getNode_dir (p : Path) :
    ∀ (t : Tree CLeaf) (ch : Children CLeaf),
      getNode t p = some (.dir ch) → dirsOnly t p = true := by
  induction p with
  | nil =>
    intro t ch h
    rw [getNode_nil] at h
    cases h
    rfl
  | cons n p2 ih =>
    intro t ch h
    cases t with
    | leaf a =>
      rw [getNode] at h
      cases h
    | dir ch0 =>
      rw [getNode] at h
      rw [dirsOnly]
      cases hl : lookupCh ch0 n with
      | none =>
        rw [hl] at h
        cases h
      | some c =>
        rw [hl] at h
        have h2 : getNode c p2 = some (Tree.dir ch) := h
        cases c with
        | leaf a =>
          cases p2 with
          | nil =>
            rw [getNode_nil] at h2
            cases h2
          | cons x xs =>
            have h3 : (none : Option (Tree CLeaf)) = some (Tree.dir ch) := h2
            cases h3
        | dir ch2 =>
          show dirsOnly (Tree.dir ch2) p2 = true
          exact ih _ _ h2

theorem getNode_isSome_of_dirsOnly (p : Path) :
    ∀ t : Tree CLeaf, dirsOnly t p = true → (getNode t p).isSome = true := by
  induction p with
  | nil =>
    intro t h
    rw [getNode_nil]
    rfl
  | cons n p2 ih =>
    intro t h
    cases t with
    | leaf a =>
      rw [dirsOnly] at h
      cases h
    | dir ch =>
      rw [dirsOnly] at h
      rw [getNode]
      cases hl : lookupCh ch n with
      | none =>
        rw [hl] at h
        cases h
      | some c =>
        rw [hl] at h
        cases c with
        | leaf a => cases h
        | dir ch2 => exact ih _ h

theorem dirsOnly_dropLast (p : Path) :
    ∀ t : Tree CLeaf, dirsOnly t p = true → dirsOnly t p.dropLast = true := by
  induction p with
  | nil =>
    intro t h
    exact h
  | cons n p2 ih =>
    intro t h
    cases p2 with
    | nil =>
      show dirsOnly t [] = true
      cases t <;> rfl
    | cons x xs =>
      cases t with
      | leaf a =>
        rw [dirsOnly] at h
        cases h
      | dir ch =>
        rw [dirsOnly] at h
        show dirsOnly (Tree.dir ch) (n :: (x :: xs).dropLast) = true
        rw [dirsOnly]
        cases hl : lookupCh ch n with
        | none =>
          rw [hl] at h
          cases h
        | some c =>
          rw [hl] at h
          cases c with
          | leaf a => cases h
          | dir ch2 => exact ih _ h

end ContentHash

namespace ContentHash

theorem removeAt_getNode {α : Type} :
    ∀ (p : Path) (root : Tree α) (ch : Children α) (c : String) (root2 : Tree α),
      getNode root p = some (.dir ch) → removeAt root (p ++ [c]) = some root2 →
      getNode root2 p = some (.dir (removeCh ch c))
| [], root, ch, c, root2 => by
  intro h1 h2
  rw [getNode_nil] at h1
  cases h1
  rw [List.nil_append] at h2
  have h3 : some (Tree.dir (removeCh ch c)) = some root2 := h2
  cases h3
  rw [getNode_nil]
| n :: p2, root, ch, c, root2 => by
  intro h1 h2
  cases root with
  | leaf a =>
    have h3 : (none : Option (Tree α)) = some (.dir ch) := h1
    cases h3
  | dir ch0 =>
    rw [getNode] at h1
    rw [List.cons_append] at h2
    obtain ⟨y, ys, hys⟩ : ∃ y ys, p2 ++ [c] = y :: ys := by
      cases p2 with
      | nil => exact ⟨c, [], rfl⟩
      | cons a as => exact ⟨a, as ++ [c], rfl⟩
    rw [hys] at h2
    cases hl : lookupCh ch0 n with
    | none =>
      rw [hl] at h1
      cases h1
    | some child =>
      rw [hl] at h1
      have h1b : getNode child p2 = some (.dir ch) := h1
      have h2b : (match lookupCh ch0 n with
        | some cc => (removeAt cc (y :: ys)).map (fun c2 => Tree.dir (insertCh ch0 n c2))
        | none => none) = some root2 := h2
      rw [hl] at h2b
      have h2c : (removeAt child (y :: ys)).map
          (fun c2 => Tree.dir (insertCh ch0 n c2)) = some root2 := h2b
      cases hr : removeAt child (y :: ys) with
      | none =>
        rw [hr] at h2c
        cases h2c
      | some child2 =>
        rw [hr] at h2c
        have h2d : some (Tree.dir (insertCh ch0 n child2)) = some root2 := h2c
        cases h2d
        rw [getNode, lookup_insert]
        rw [← hys] at hr
        exact removeAt_getNode p2 child ch c child2 h1b hr

theorem childEntries_error_tooManyLinks (f : String → Except CErr Digest) :
    ∀ (ch : Children CLeaf) (e : CErr),
      childEntries f ch = .error e → e = .tooManyLinks
| .nil => by
  intro e h
  cases h
| .cons n t rest => by
  intro e h
  rw [childEntries] at h
  cases hf : f n with
  | ok d =>
    rw [hf] at h
    cases hr : childEntries f rest with
    | ok es => rw [hr] at h; cases h
    | error e2 =>
      rw [hr] at h
      cases h
      exact childEntries_error_tooManyLinks f rest e hr
  | error e1 =>
    rw [hf] at h
    cases e1 with
    | notFound =>
      cases hr : childEntries f rest with
      | ok es => rw [hr] at h; cases h
      | error e2 =>
        rw [hr] at h
        cases h
        exact childEntries_error_tooManyLinks f rest e hr
    | tooManyLinks =>
      cases h
      rfl

theorem canon_stable (root : Tree CLeaf) :
    ∀ (f f' : Nat) (acc rest : Path) (r : Except CErr Path),
      canon f root acc rest = r → r ≠ .error .tooManyLinks → f ≤ f' →
      canon f' root acc rest = r := by
  intro f
  induction f with
  | zero =>
    intro f' acc rest r h hr hf
    rw [canon] at h
    cases h
    exact absurd rfl hr
  | succ g ih =>
    intro f' acc rest r h hr hf
    cases f' with
    | zero => omega
    | succ g2 =>
      have hg : g ≤ g2 := Nat.le_of_succ_le_succ hf
      cases rest with
      | nil =>
        rw [canon] at h
        rw [canon]
        exact h
      | cons n rest2 =>
        rw [canon] at h
        rw [canon]
        cases hget : getNode root (acc ++ [n]) with
        | none =>
          rw [hget] at h
          exact h
        | some node =>
          rw [hget] at h
          cases rest2 with
          | nil => exact h
          | cons y ys =>
            cases node with
            | dir ch => exact ih g2 (acc ++ [n]) (y :: ys) r h hr hg
            | leaf a =>
              cases a with
              | symlink t => exact ih g2 acc (splitTarget t ++ y :: ys) r h hr hg
              | file d => exact h

end ContentHash

namespace ContentHash

theorem canon_straight (root : Tree CLeaf) (pre : Path) :
    ∀ (f : Nat) (acc : Path) (sub : Tree CLeaf) (last : String),
      getNode root acc = some sub → dirsOnly sub pre = true →
      (getNode sub (pre ++ [last])).isSome = true →
      pre.length + 1 ≤ f →
      canon f root acc (pre ++ [last]) = .ok (acc ++ pre ++ [last]) := by
  induction pre with
  | nil =>
    intro f acc sub last h1 h2 h3 hf
    cases f with
    | zero => omega
    | succ g =>
      rw [List.nil_append, canon]
      have hg : getNode root (acc ++ [last]) = getNode sub [last] := by
        rw [getNode_append, h1, Option.some_bind]
      rw [List.nil_append] at h3
      cases hv : getNode sub [last] with
      | none =>
        rw [hv] at h3
        cases h3
      | some v =>
        rw [hg, hv]
        show Except.ok (acc ++ [last]) = Except.ok (acc ++ [] ++ [last])
        rw [List.append_nil]
  | cons x pre2 ih =>
    intro f acc sub last h1 h2 h3 hf
    cases f with
    | zero =>
      rw [List.length_cons] at hf
      omega
    | succ g =>
      cases sub with
      | leaf a =>
        rw [dirsOnly] at h2
        cases h2
      | dir ch =>
        rw [dirsOnly] at h2
        cases hl : lookupCh ch x with
        | none =>
          rw [hl] at h2
          cases h2
        | some c =>
          rw [hl] at h2
          cases c with
          | leaf a => cases h2
          | dir ch2 =>
            rw [List.cons_append, canon]
            have hg : getNode root (acc ++ [x]) = some (.dir ch2) := by
              rw [getNode_append, h1, Option.some_bind, getNode, hl]
              rfl
            rw [hg]
            obtain ⟨y, ys, hys⟩ : ∃ y ys, pre2 ++ [last] = y :: ys := by
              cases pre2 with
              | nil => exact ⟨last, [], rfl⟩
              | cons a as => exact ⟨a, as ++ [last], rfl⟩
            rw [hys]
            show canon g root (acc ++ [x]) (y :: ys)
              = Except.ok (acc ++ x :: pre2 ++ [last])
            rw [← hys]
            have h3b : (getNode (Tree.dir ch2) (pre2 ++ [last])).isSome = true := by
              rw [List.cons_append, getNode, hl] at h3
              exact h3
            have hlen : pre2.length + 1 ≤ g := by
              rw [List.length_cons] at hf
              omega
            rw [ih g (acc ++ [x]) (Tree.dir ch2) last hg h2 h3b hlen]
            simp [List.append_assoc]
  
theorem canon_missing (root : Tree CLeaf) (pre : Path) :
    ∀ (f : Nat) (acc : Path) (sub : Tree CLeaf) (last : String) (suffix : Path),
      getNode root acc = some sub → dirsOnly sub pre = true →
      getNode sub (pre ++ [last]) = none →
      pre.length + 1 ≤ f →
      canon f root acc (pre ++ last :: suffix) = .error .notFound := by
  induction pre with
  | nil =>
    intro f acc sub last suffix h1 h2 h3 hf
    cases f with
    | zero => omega
    | succ g =>
      rw [List.nil_append, canon]
      have hg : getNode root (acc ++ [last]) = none := by
        rw [getNode_append, h1, Option.some_bind]
        rw [List.nil_append] at h3
        exact h3
      rw [hg]
  | cons x pre2 ih =>
    intro f acc sub last suffix h1 h2 h3 hf
    cases f with
    | zero =>
      rw [List.length_cons] at hf
      omega
    | succ g =>
      cases sub with
      | leaf a =>
        rw [dirsOnly] at h2
        cases h2
      | dir ch =>
        rw [dirsOnly] at h2
        cases hl : lookupCh ch x with
        | none =>
          rw [hl] at h2
          cases h2
        | some c =>
          rw [hl] at h2
          cases c with
          | leaf a => cases h2
          | dir ch2 =>
            rw [List.cons_append, canon]
            have hg : getNode root (acc ++ [x]) = some (.dir ch2) := by
              rw [getNode_append, h1, Option.some_bind, getNode, hl]
              rfl
            rw [hg]
            obtain ⟨y, ys, hys⟩ : ∃ y ys, pre2 ++ last :: suffix = y :: ys := by
              cases pre2 with
              | nil => exact ⟨last, suffix, rfl⟩
              | cons a as => exact ⟨a, as ++ last :: suffix, rfl⟩
            rw [hys]
            show canon g root (acc ++ [x]) (y :: ys) = Except.error CErr.notFound
            rw [← hys]
            have h3b : getNode (Tree.dir ch2) (pre2 ++ [last]) = none := by
              rw [List.cons_append, getNode, hl] at h3
              exact h3
            have hlen : pre2.length + 1 ≤ g := by
              rw [List.length_cons] at hf
              omega
            exact ih g (acc ++ [x]) (Tree.dir ch2) last suffix hg h2 h3b hlen

theorem canon_ok_inv (root : Tree CLeaf) :
    ∀ (f : Nat) (acc rest q : Path),
      dirsOnly root acc = true → canon f root acc rest = .ok q →
      dirsOnly root q.dropLast = true ∧ (getNode root q).isSome = true := by
  intro f
  induction f with
  | zero =>
    intro acc rest q hd h
    rw [canon] at h
    cases h
  | succ g ih =>
    intro acc rest q hd h
    cases rest with
    | nil =>
      rw [canon] at h
      cases h
      exact ⟨dirsOnly_dropLast acc root hd, getNode_isSome_of_dirsOnly acc root hd⟩
    | cons n rest2 =>
      rw [canon] at h
      cases hget : getNode root (acc ++ [n]) with
      | none =>
        rw [hget] at h
        cases h
      | some node =>
        rw [hget] at h
        cases rest2 with
        | nil =>
          have h2 : Except.ok (acc ++ [n]) = Except.ok q := h
          cases h2
          constructor
          · rw [List.dropLast_concat]
            exact hd
          · rw [hget]
            rfl
        | cons y ys =>
          cases node with
          | dir ch =>
            have hd2 : dirsOnly root (acc ++ [n]) = true :=
              dirsOnly_of_getNode_dir (acc ++ [n]) root ch hget
            exact ih (acc ++ [n]) (y :: ys) q hd2 h
          | leaf a =>
            cases a with
            | symlink t => exact ih acc (splitTarget t ++ y :: ys) q hd h
            | file d =>
              have h2 : Except.error CErr.notFound = Except.ok q := h
              cases h2

theorem canon_of_canonical (root : Tree CLeaf) (q : Path) (f : Nat)
    (hd : dirsOnly root q.dropLast = true)
    (hs : (getNode root q).isSome = true)
    (hf : q.length + 1 ≤ f) :
    canon f root [] q = .ok q := by
  rcases List.eq_nil_or_concat q with hq | ⟨pre, c, hq⟩
  · cases hq
    cases f with
    | zero => omega
    | succ g => rw [canon]
  · rw [List.concat_eq_append] at hq
    cases hq
    have hd2 : dirsOnly root pre = true := by
      rw [List.dropLast_concat] at hd
      exact hd
    have h2 := canon_straight root pre f [] root c (getNode_nil root) hd2 hs
      (by rw [List.length_append, List.length_cons, List.length_nil] at hf; omega)
    rw [List.nil_append] at h2
    exact h2

theorem childEntries_stable (f1 f2 : String → Except CErr Digest)
    (hstep : ∀ n r, f1 n = r → r ≠ .error .tooManyLinks → f2 n = r) :
    ∀ (ch : Children CLeaf) (es : List (String × Option Digest)),
      childEntries f1 ch = .ok es → childEntries f2 ch = .ok es
| .nil => by
  intro es h
  exact h
| .cons n t rest => by
  intro es h
  rw [childEntries] at h
  rw [childEntries]
  cases hf : f1 n with
  | ok d =>
    rw [hf] at h
    have hf2 : f2 n = .ok d := hstep n _ hf (fun hx => Except.noConfusion hx)
    rw [hf2]
    cases hr : childEntries f1 rest with
    | ok es2 =>
      rw [hr] at h
      rw [childEntries_stable f1 f2 hstep rest es2 hr]
      exact h
    | error e =>
      rw [hr] at h
      cases h
  | error e =>
    rw [hf] at h
    cases e with
    | tooManyLinks => cases h
    | notFound =>
      have hf2 : f2 n = .error .notFound :=
        hstep n _ hf (fun hx => CErr.noConfusion (Except.error.inj hx))
      rw [hf2]
      cases hr : childEntries f1 rest with
      | ok es2 =>
        rw [hr] at h
        rw [childEntries_stable f1 f2 hstep rest es2 hr]
        exact h
      | error e2 =>
        rw [hr] at h
        cases h

theorem nodeDigest_stable (root : Tree CLeaf) :
    ∀ (f f' : Nat) (p : Path) (r : Except CErr Digest),
      nodeDigest f root p = r → r ≠ .error .tooManyLinks → f ≤ f' →
      nodeDigest f' root p = r := by
  intro f
  induction f with
  | zero =>
    intro f' p r h hr hf
    rw [nodeDigest] at h
    cases h
    exact absurd rfl hr
  | succ g ih =>
    intro f' p r h hr hf
    cases f' with
    | zero => omega
    | succ g2 =>
      have hg : g ≤ g2 := Nat.le_of_succ_le_succ hf
      rw [nodeDigest] at h
      rw [nodeDigest]
      cases hget : getNode root p with
      | none =>
        rw [hget] at h
        exact h
      | some node =>
        rw [hget] at h
        cases node with
        | leaf a =>
          cases a with
          | file d => exact h
          | symlink t =>
            have h2 : (match canon g root (List.dropLast p) (splitTarget t) with
              | Except.error e => Except.error e
              | Except.ok q => nodeDigest g root q) = r := h
            show (match canon g2 root (List.dropLast p) (splitTarget t) with
              | Except.error e => Except.error e
              | Except.ok q => nodeDigest g2 root q) = r
            cases hc : canon g root (List.dropLast p) (splitTarget t) with
            | error e =>
              rw [hc] at h2
              cases e with
              | tooManyLinks =>
                have h3 : Except.error CErr.tooManyLinks = r := h2
                cases h3
                exact absurd rfl hr
              | notFound =>
                have hc2 : canon g2 root (List.dropLast p) (splitTarget t)
                    = .error .notFound :=
                  canon_stable root g g2 _ _ _ hc
                    (fun hx => CErr.noConfusion (Except.error.inj hx)) hg
                rw [hc2]
                exact h2
            | ok q =>
              rw [hc] at h2
              have hc2 : canon g2 root (List.dropLast p) (splitTarget t) = .ok q :=
                canon_stable root g g2 _ _ _ hc (fun hx => Except.noConfusion hx) hg
              rw [hc2]
              exact ih g2 q r h2 hr hg
        | dir ch =>
          have h2 : (match childEntries (fun n => nodeDigest g root (p ++ [n])) ch with
            | Except.error e => Except.error e
            | Except.ok es => Except.ok (Digest.dir es)) = r := h
          show (match childEntries (fun n => nodeDigest g2 root (p ++ [n])) ch with
            | Except.error e => Except.error e
            | Except.ok es => Except.ok (Digest.dir es)) = r
          cases he : childEntries (fun n => nodeDigest g root (p ++ [n])) ch with
          | error e =>
            rw [he] at h2
            have he2 : e = .tooManyLinks := childEntries_error_tooManyLinks _ ch e he
            cases he2
            have h3 : Except.error CErr.tooManyLinks = r := h2
            cases h3
            exact absurd rfl hr
          | ok es =>
            rw [he] at h2
            have he2 : childEntries (fun n => nodeDigest g2 root (p ++ [n])) ch = .ok es :=
              childEntries_stable _ _ (fun n r2 hn hrn => ih g2 (p ++ [n]) r2 hn hrn hg)
                ch es he
            rw [he2]
            exact h2

end ContentHash

namespace ContentHash

theorem dirsOnly_nil (t : Tree CLeaf) : dirsOnly t [] = true := by
  cases t <;> rfl

/-- C4: a path that is absent (its parent chain exists but the final entry
does not) and a path resolving to a broken symlink both make `Checksum`
fail, and the failure is the same `notFound` error value in both cases. -/
theorem checksum_notFound_cases :
    (∀ (f : Nat) (root : Tree CLeaf) (p0 : Path) (c : String),
       dirsOnly root p0 = true → getNode root (p0 ++ [c]) = none →
       p0.length + 1 ≤ f →
       Checksum f root (p0 ++ [c]) = .error .notFound)
    ∧ (∀ (f : Nat) (root : Tree CLeaf) (p p2 : Path) (t : String),
       canon f root [] p = .ok p2 →
       getNode root p2 = some (.leaf (.symlink t)) →
       canon f root p2.dropLast (splitTarget t) = .error .notFound →
       Checksum (f + 1) root p = .error .notFound) := by
  constructor
  · intro f root p0 c hd hnone hf
    rw [Checksum]
    have hc : canon f root [] (p0 ++ [c]) = .error .notFound :=
      canon_missing root p0 f [] root c [] (getNode_nil root) hd hnone hf
    rw [hc]
  · intro f root p p2 t hc hsym hbroken
    rw [Checksum]
    have hc2 : canon (f + 1) root [] p = .ok p2 :=
      canon_stable root f (f + 1) [] p _ hc (fun hx => Except.noConfusion hx)
        (Nat.le_succ f)
    rw [hc2]
    show nodeDigest (f + 1) root p2 = Except.error CErr.notFound
    rw [nodeDigest, hsym]
    show (match canon f root (List.dropLast p2) (splitTarget t) with
      | Except.error e => Except.error e
      | Except.ok q => nodeDigest f root q) = Except.error CErr.notFound
    rw [hbroken]

/-- C4 (witness): on the first test tree, `Checksum` of the absent path
`nosuch` and of the broken symlink `d0/ghi` both fail with `notFound`. -/
theorem checksum_notFound_cases_witness :
    Checksum 12 cTreeA ["nosuch"] = .error .notFound
    ∧ Checksum 13 cTreeA ["d0", "ghi"] = .error .notFound :=
  ⟨checksum_notFound_cases.1 12 cTreeA [] "nosuch" (by rfl) (by rfl) (by decide),
   checksum_notFound_cases.2 12 cTreeA ["d0", "ghi"] ["d0", "ghi"] "nosuchfile"
     (by rfl) (by rfl) (by rfl)⟩

/-- C2: a symlink whose target resolves (through directories and chained
symlinks) to a node with a computable digest checksums to exactly the
digest of the resolved target path: `Checksum` of the symlink path and
`Checksum` of the resolved target path return the same digest. -/
theorem checksum_symlink_follows (f : Nat) (root : Tree CLeaf) (p p2 q : Path)
    (t : String) (d : Digest)
    (h1 : canon f root [] p = .ok p2)
    (h2 : getNode root p2 = some (.leaf (.symlink t)))
    (h3 : canon f root p2.dropLast (splitTarget t) = .ok q)
    (h4 : nodeDigest f root q = .ok d) :
    Checksum (f + q.length + 1) root p = .ok d
    ∧ Checksum (f + q.length + 1) root q = .ok d := by
  have hF : f ≤ f + q.length := Nat.le_add_right _ _
  constructor
  · rw [Checksum]
    have hc : canon (f + q.length + 1) root [] p = .ok p2 :=
      canon_stable root f _ _ _ _ h1 (fun hx => Except.noConfusion hx) (by omega)
    rw [hc]
    show nodeDigest (f + q.length + 1) root p2 = Except.ok d
    rw [nodeDigest, h2]
    show (match canon (f + q.length) root (List.dropLast p2) (splitTarget t) with
      | Except.error e => Except.error e
      | Except.ok q2 => nodeDigest (f + q.length) root q2) = Except.ok d
    have hc3 : canon (f + q.length) root (List.dropLast p2) (splitTarget t) = .ok q :=
      canon_stable root f _ _ _ _ h3 (fun hx => Except.noConfusion hx) hF
    rw [hc3]
    show nodeDigest (f + q.length) root q = Except.ok d
    exact nodeDigest_stable root f _ q _ h4 (fun hx => Except.noConfusion hx) hF
  · rw [Checksum]
    have hinv := canon_ok_inv root f [] p p2 (dirsOnly_nil root) h1
    have hinv2 := canon_ok_inv root f p2.dropLast (splitTarget t) q hinv.1 h3
    have hcq : canon (f + q.length + 1) root [] q = .ok q :=
      canon_of_canonical root q _ hinv2.1 hinv2.2 (by omega)
    rw [hcq]
    exact nodeDigest_stable root f _ q _ h4 (fun hx => Except.noConfusion hx) (by omega)

/-- C2 (witness): on the first test tree, the symlink `d0/def` (target
`abc`) checksums to the same digest as its resolved target `d0/abc`. -/
theorem checksum_symlink_follows_witness :
    Checksum 15 cTreeA ["d0", "def"] = .ok (.file [0])
    ∧ Checksum 15 cTreeA ["d0", "abc"] = .ok (.file [0]) :=
  checksum_symlink_follows 12 cTreeA ["d0", "def"] ["d0", "def"] ["d0", "abc"]
    "abc" (.file [0]) (by rfl) (by rfl) (by rfl) (by rfl)

/-- C6: after a `Delete` change event for a directory is applied via
`HandleChange`, `Checksum` of that directory path and of every former
descendant path fails with the `notFound` error. -/
theorem delete_dir_notFound (f : Nat) (root : Tree CLeaf) (p0 : Path)
    (c : String) (ch : Children CLeaf) (root2 : Tree CLeaf) (sub : Path)
    (hch : getNode root (p0 ++ [c]) = some (.dir ch))
    (hdel : HandleChange root ⟨.delete, p0 ++ [c], .dir⟩ = some root2)
    (hf : p0.length + 1 ≤ f) :
    Checksum f root2 (p0 ++ [c]) = .error .notFound
    ∧ Checksum f root2 (p0 ++ [c] ++ sub) = .error .notFound := by
  have hrem : removeAt root (p0 ++ [c]) = some root2 := hdel
  obtain ⟨ch0, hp0, hlk⟩ := getNode_concat_some root p0 c _ hch
  have hg2 : getNode root2 p0 = some (.dir (removeCh ch0 c)) :=
    removeAt_getNode p0 root ch0 c root2 hp0 hrem
  have hd2 : dirsOnly root2 p0 = true := dirsOnly_of_getNode_dir p0 root2 _ hg2
  have hmiss : getNode root2 (p0 ++ [c]) = none := by
    rw [getNode_append, hg2, Option.some_bind, getNode, lookup_removeCh]
  constructor
  · rw [Checksum]
    have hc : canon f root2 [] (p0 ++ [c]) = .error .notFound :=
      canon_missing root2 p0 f [] root2 c [] (getNode_nil root2) hd2 hmiss hf
    rw [hc]
  · rw [Checksum]
    have hc : canon f root2 [] (p0 ++ c :: sub) = .error .notFound :=
      canon_missing root2 p0 f [] root2 c sub (getNode_nil root2) hd2 hmiss hf
    rw [List.append_assoc, List.cons_append, List.nil_append, hc]

/-- C6 (witness): deleting the directory `d0` from the first test tree via
`HandleChange` makes `Checksum` of `d0` and of its former child `d0/abc`
fail with `notFound`. -/
theorem delete_dir_notFound_witness :
    Checksum 12 cTreeA2 ["d0"] = .error .notFound
    ∧ Checksum 12 cTreeA2 (["d0"] ++ ["abc"]) = .error .notFound :=
  delete_dir_notFound 12 cTreeA []
    "d0"
    (.cons ("abc") (.leaf (.file (.file [0])))
     (.cons ("def") (.leaf (.symlink ("abc")))
     (.cons ("ghi") (.leaf (.symlink ("nosuchfile"))) .nil)))
    cTreeA2 ["abc"] (by rfl) (by rfl) (by decide)

/-- C3: a directory containing a broken symlink child changes its digest
when that child is removed, even though the broken symlink itself was never
checksummable (`Checksum` on it fails with `notFound`). -/
theorem remove_broken_symlink_changes_dir_digest (f : Nat) (root : Tree CLeaf)
    (p : Path) (c : String) (t : String) (ch : Children CLeaf)
    (root2 : Tree CLeaf) (d d2 : Digest)
    (hdir : getNode root p = some (.dir ch))
    (hsym : getNode root (p ++ [c]) = some (.leaf (.symlink t)))
    (hbroken : Checksum f root (p ++ [c]) = .error .notFound)
    (hbefore : nodeDigest f root p = .ok d)
    (hrem : removeAt root (p ++ [c]) = some root2)
    (hafter : nodeDigest f root2 p = .ok d2) :
    d ≠ d2 := by
  cases f with
  | zero =>
    rw [nodeDigest] at hbefore
    cases hbefore
  | succ g =>
    rw [nodeDigest] at hbefore hafter
    rw [hdir] at hbefore
    have hg2 : getNode root2 p = some (.dir (removeCh ch c)) :=
      removeAt_getNode p root ch c root2 hdir hrem
    rw [hg2] at hafter
    have hb2 : (match childEntries (fun n => nodeDigest g root (p ++ [n])) ch with
      | Except.error e => Except.error e
      | Except.ok es => Except.ok (Digest.dir es)) = Except.ok d := hbefore
    have ha2 : (match childEntries (fun n => nodeDigest g root2 (p ++ [n])) (removeCh ch c) with
      | Except.error e => Except.error e
      | Except.ok es => Except.ok (Digest.dir es)) = Except.ok d2 := hafter
    cases he1 : childEntries (fun n => nodeDigest g root (p ++ [n])) ch with
    | error e =>
      rw [he1] at hb2
      cases hb2
    | ok es1 =>
      rw [he1] at hb2
      have hd1 : Except.ok (Digest.dir es1) = Except.ok d := hb2
      cases hd1
      cases he2 : childEntries (fun n => nodeDigest g root2 (p ++ [n])) (removeCh ch c) with
      | error e =>
        rw [he2] at ha2
        cases ha2
      | ok es2 =>
        rw [he2] at ha2
        have hd2b : Except.ok (Digest.dir es2) = Except.ok d2 := ha2
        cases hd2b
        have hl1 : es1.length = numCh ch := childEntries_ok_length _ ch es1 he1
        have hl2 : es2.length = numCh (removeCh ch c) :=
          childEntries_ok_length _ _ es2 he2
        have hsome : (lookupCh ch c).isSome = true := by
          obtain ⟨ch0, hp0, hlk⟩ := getNode_concat_some root p c _ hsym
          rw [hp0] at hdir
          cases hdir
          rw [hlk]
          rfl
        have hlt : numCh (removeCh ch c) < numCh ch := numCh_removeCh_lt c ch hsome
        intro heq
        have hes : es1 = es2 := by
          injection heq
        rw [hes] at hl1
        omega

/-- C3 (witness): on the second test tree, removing the broken symlink
`ghi` changes the root directory's digest from `dgstDirD0` to the distinct
`dgstDirD0Modified`, while `Checksum` of `ghi` itself fails. -/
theorem remove_broken_symlink_changes_dir_digest_witness :
    dgstDirD0 ≠ dgstDirD0Modified :=
  remove_broken_symlink_changes_dir_digest 12 cTreeB [] "ghi" "nosuchfile"
    (.cons ("abc") (.leaf (.file (.file [0])))
     (.cons ("def") (.leaf (.symlink ("abc")))
     (.cons ("ghi") (.leaf (.symlink ("nosuchfile"))) .nil)))
    cTreeB2 dgstDirD0 dgstDirD0Modified
    (by rfl) (by rfl) (by rfl) (by rfl) (by rfl) (by rfl)

end ContentHash

namespace ContentHash

theorem setAt_nil {α : Type} (t v : Tree α) : setAt t [] v = some v := by
  cases t <;> rfl

theorem hash_lookup : ∀ (ch : Children FLeaf) (n : String),
    lookupCh (hashChildren ch) n = (lookupCh ch n).map hashTree
| .nil, n => rfl
| .cons m t rest, n => by
  rw [hashChildren, lookupCh, lookupCh]
  by_cases h : n = m
  · rw [if_pos h, if_pos h]
    rfl
  · rw [if_neg h, if_neg h, hash_lookup rest n]

theorem hash_getNode : ∀ (p : Path) (t : Tree FLeaf),
    getNode (hashTree t) p = (getNode t p).map hashTree := by
  intro p
  induction p with
  | nil =>
    intro t
    rw [getNode_nil, getNode_nil]
    rfl
  | cons n p2 ih =>
    intro t
    cases t with
    | leaf a =>
      show getNode (Tree.leaf (hashLeaf a)) (n :: p2)
        = (getNode (Tree.leaf a) (n :: p2)).map hashTree
      rfl
    | dir ch =>
      show getNode (Tree.dir (hashChildren ch)) (n :: p2)
        = (getNode (Tree.dir ch) (n :: p2)).map hashTree
      rw [getNode, getNode, hash_lookup]
      cases hl : lookupCh ch n with
      | none => rfl
      | some c => exact ih c

theorem hash_insert : ∀ (ch : Children FLeaf) (n : String) (v : Tree FLeaf),
    insertCh (hashChildren ch) n (hashTree v) = hashChildren (insertCh ch n v)
| .nil, n, v => rfl
| .cons m t rest, n, v => by
  rw [hashChildren, insertCh, insertCh]
  by_cases h : n = m
  · rw [if_pos h, if_pos h, hashChildren]
  · rw [if_neg h, if_neg h]
    by_cases h2 : strLt n m = true
    · rw [if_pos h2, if_pos h2, hashChildren, hashChildren]
    · rw [if_neg h2, if_neg h2, hashChildren, hash_insert rest n v]

theorem hash_setAt : ∀ (p : Path) (t v : Tree FLeaf),
    setAt (hashTree t) p (hashTree v) = (setAt t p v).map hashTree
| [], t, v => by
  rw [setAt_nil, setAt_nil]
  rfl
| n :: p2, t, v => by
  cases t with
  | leaf a =>
    show setAt (Tree.leaf (hashLeaf a)) (n :: p2) (hashTree v)
      = (setAt (Tree.leaf a) (n :: p2) v).map hashTree
    rfl
  | dir ch =>
    cases p2 with
    | nil =>
      show some (Tree.dir (insertCh (hashChildren ch) n (hashTree v)))
        = (some (Tree.dir (insertCh ch n v))).map hashTree
      rw [hash_insert]
      rfl
    | cons y ys =>
      rw [show hashTree (Tree.dir ch) = Tree.dir (hashChildren ch) from rfl]
      rw [setAt, setAt]
      try dsimp only
      rw [hash_lookup]
      cases hl : lookupCh ch n with
      | none => rfl
      | some c =>
        show Option.map (fun c2 => Tree.dir (insertCh (hashChildren ch) n c2))
            (setAt (hashTree c) (y :: ys) (hashTree v))
          = Option.map hashTree
            (Option.map (fun c2 => Tree.dir (insertCh ch n c2)) (setAt c (y :: ys) v))
        rw [hash_setAt (y :: ys) c v]
        cases hs : setAt c (y :: ys) v with
        | none => rfl
        | some c2 =>
          show some (Tree.dir (insertCh (hashChildren ch) n (hashTree c2)))
            = some (hashTree (Tree.dir (insertCh ch n c2)))
          rw [show hashTree (Tree.dir (insertCh ch n c2))
            = Tree.dir (hashChildren (insertCh ch n c2)) from rfl]
          rw [hash_insert]

theorem write_handle_commute (t : Tree FLeaf) (c : Change) (t2 : Tree FLeaf)
    (hk : c.kind = .add) (hw : writeChange t c = some t2) :
    HandleChange (hashTree t) c = some (hashTree t2) := by
  obtain ⟨k, p, spec⟩ := c
  cases hk
  rw [writeChange] at hw
  rw [HandleChange]
  cases spec with
  | file content =>
    have hw2 : setAt t p (Tree.leaf (FLeaf.file content)) = some t2 := hw
    show setAt (hashTree t) p (Tree.leaf (CLeaf.file (Digest.file content)))
      = some (hashTree t2)
    rw [show (Tree.leaf (CLeaf.file (Digest.file content)) : Tree CLeaf)
      = hashTree (Tree.leaf (FLeaf.file content)) from rfl]
    rw [hash_setAt, hw2]
    rfl
  | dir =>
    have hw2 : (match getNode t p with
      | none => setAt t p (Tree.dir Children.nil)
      | some x => none) = some t2 := hw
    show (match getNode (hashTree t) p with
      | some (Tree.dir ch) => some (hashTree t)
      | x => setAt (hashTree t) p (Tree.dir Children.nil)) = some (hashTree t2)
    cases hg : getNode t p with
    | some x =>
      rw [hg] at hw2
      have hw3 : (none : Option (Tree FLeaf)) = some t2 := hw2
      cases hw3
    | none =>
      rw [hg] at hw2
      have hw3 : setAt t p (Tree.dir Children.nil) = some t2 := hw2
      have hg2 : getNode (hashTree t) p = none := by
        rw [hash_getNode, hg]
        rfl
      rw [hg2]
      show setAt (hashTree t) p (Tree.dir Children.nil) = some (hashTree t2)
      rw [show (Tree.dir Children.nil : Tree CLeaf)
        = hashTree (Tree.dir Children.nil) from rfl]
      rw [hash_setAt, hw3]
      rfl
  | symlink tg =>
    have hw2 : (match getNode t p with
      | none => setAt t p (Tree.leaf (FLeaf.symlink tg))
      | some x => none) = some t2 := hw
    show setAt (hashTree t) p (Tree.leaf (CLeaf.symlink tg)) = some (hashTree t2)
    cases hg : getNode t p with
    | some x =>
      rw [hg] at hw2
      have hw3 : (none : Option (Tree FLeaf)) = some t2 := hw2
      cases hw3
    | none =>
      rw [hg] at hw2
      have hw3 : setAt t p (Tree.leaf (FLeaf.symlink tg)) = some t2 := hw2
      rw [show (Tree.leaf (CLeaf.symlink tg) : Tree CLeaf)
        = hashTree (Tree.leaf (FLeaf.symlink tg)) from rfl]
      rw [hash_setAt, hw3]
      rfl

theorem writes_handles_commute : ∀ (cs : List Change) (t fs : Tree FLeaf),
    (∀ c ∈ cs, c.kind = .add) → writeChanges t cs = some fs →
    handleChanges (hashTree t) cs = some (hashTree fs)
| [], t, fs => by
  intro hall hw
  rw [writeChanges] at hw
  cases hw
  rw [handleChanges]
| c :: cs2, t, fs => by
  intro hall hw
  rw [writeChanges] at hw
  rw [handleChanges]
  cases hwc : writeChange t c with
  | none =>
    rw [hwc] at hw
    cases hw
  | some t1 =>
    rw [hwc] at hw
    have hk : c.kind = .add := hall c (List.mem_cons_self c cs2)
    have hh : HandleChange (hashTree t) c = some (hashTree t1) :=
      write_handle_commute t c t1 hk hwc
    rw [hh]
    exact writes_handles_commute cs2 t1 fs
      (fun c2 hm => hall c2 (List.mem_cons_of_mem c hm)) hw

theorem checksumFS_file (f : Nat) (fs : Tree FLeaf) (p q : Path) (c : List Nat)
    (hc : canon f (hashTree fs) [] p = .ok q)
    (hg : getNode fs q = some (.leaf (.file c)))
    (hf : 1 ≤ f) :
    ChecksumFS f fs p = .ok (.file c) := by
  rw [ChecksumFS, Checksum, hc]
  show nodeDigest f (hashTree fs) q = Except.ok (Digest.file c)
  cases f with
  | zero => omega
  | succ g =>
    have hq : getNode (hashTree fs) q = some (.leaf (.file (.file c))) := by
      rw [hash_getNode, hg]
      rfl
    rw [nodeDigest, hq]

end ContentHash

namespace ContentHash

/-- C5: the digest of a file is a function of its byte content only: any
two paths resolving to files with equal content checksum to the same
digest, independent of names and locations in the tree (the model carries
no modes or timestamps, per spec invariant 2), while files with different
contents receive different digests. -/
theorem file_digest_content_only (f : Nat) (fs : Tree FLeaf) (p1 p2 q1 q2 : Path)
    (c1 c2 : List Nat)
    (h1 : canon f (hashTree fs) [] p1 = .ok q1)
    (h2 : getNode fs q1 = some (.leaf (.file c1)))
    (h3 : canon f (hashTree fs) [] p2 = .ok q2)
    (h4 : getNode fs q2 = some (.leaf (.file c2)))
    (hf : 1 ≤ f) :
    ChecksumFS f fs p1 = .ok (.file c1)
    ∧ ChecksumFS f fs p2 = .ok (.file c2)
    ∧ (c1 = c2 → ChecksumFS f fs p1 = ChecksumFS f fs p2)
    ∧ (c1 ≠ c2 → ChecksumFS f fs p1 ≠ ChecksumFS f fs p2) := by
  have e1 := checksumFS_file f fs p1 q1 c1 h1 h2 hf
  have e2 := checksumFS_file f fs p2 q2 c2 h3 h4 hf
  refine ⟨e1, e2, ?_, ?_⟩
  · intro hc
    rw [e1, e2, hc]
  · intro hc hEq
    rw [e1, e2] at hEq
    have hd : Digest.file c1 = Digest.file c2 := Except.ok.inj hEq
    have hcc : c1 = c2 := by injection hd
    exact hc hcc

/-- C5 (witness): in the materialization of the first test stream, `foo`
and `d0/abc` hold the same bytes and checksum to the same digest. -/
theorem file_digest_content_only_witness :
    ChecksumFS 12 ((writeChanges emptyFS streamA).getD emptyFS) ["foo"]
      = .ok (.file [0])
    ∧ ChecksumFS 12 ((writeChanges emptyFS streamA).getD emptyFS) ["d0", "abc"]
      = .ok (.file [0]) :=
  have h := file_digest_content_only 12 ((writeChanges emptyFS streamA).getD emptyFS)
    ["foo"] ["d0", "abc"] ["foo"] ["d0", "abc"] [0] [0]
    (by rfl) (by rfl) (by rfl) (by rfl) (by decide)
  ⟨h.1, h.2.1⟩

/-- C1: checksums are a function of the materialized tree alone — two
references built through different mutation histories that produce
byte-for-byte, structurally identical trees yield identical digests at
every corresponding path; in particular, the content of `d0` materialized
directly as the root of a second reference has the same root digest as the
`d0` directory of the first reference. -/
theorem checksum_history_independent :
    (∀ (cs1 cs2 : List Change) (t1 t2 : Tree FLeaf),
       writeChanges emptyFS cs1 = some t1 → writeChanges emptyFS cs2 = some t2 →
       t1 = t2 → ∀ (f : Nat) (p : Path), ChecksumFS f t1 p = ChecksumFS f t2 p)
    ∧ ChecksumFS 12 ((writeChanges emptyFS streamB).getD emptyFS) []
        = ChecksumFS 12 ((writeChanges emptyFS streamA).getD emptyFS) ["d0"] := by
  constructor
  · intro cs1 cs2 t1 t2 h1 h2 he f p
    rw [he]
  · rfl

/-- C1 (witness): adding the same two files in opposite orders produces
equal trees, and the checksum of a path agrees across the two histories. -/
theorem checksum_history_independent_witness :
    ChecksumFS 12 ((writeChanges emptyFS streamP1).getD emptyFS) ["a"]
      = ChecksumFS 12 ((writeChanges emptyFS streamP2).getD emptyFS) ["a"] :=
  checksum_history_independent.1 streamP1 streamP2
    ((writeChanges emptyFS streamP1).getD emptyFS)
    ((writeChanges emptyFS streamP2).getD emptyFS)
    (by rfl) (by rfl) (by rfl) 12 ["a"]

/-- C8: a cache tree built purely by feeding `HandleChange` an ordered
stream of `Add` events carrying precomputed file digests (with no data on
the underlying filesystem) yields, at every path and fuel, the same
`Checksum` results as scanning a materialized filesystem built from the
same stream: the precomputed digests are stored directly and returned. -/
theorem handleChange_refines_scan (cs : List Change) (fs : Tree FLeaf)
    (ct : Tree CLeaf)
    (hadds : ∀ c ∈ cs, c.kind = .add)
    (hw : writeChanges emptyFS cs = some fs)
    (hh : handleChanges emptyCC cs = some ct) :
    ∀ (f : Nat) (p : Path), Checksum f ct p = ChecksumFS f fs p := by
  intro f p
  have h2 : handleChanges (hashTree emptyFS) cs = some (hashTree fs) :=
    writes_handles_commute cs emptyFS fs hadds hw
  have he : hashTree emptyFS = emptyCC := rfl
  rw [he] at h2
  rw [hh] at h2
  have hct : ct = hashTree fs := Option.some.inj h2
  rw [hct]
  rfl

/-- C8 (witness): on the test stream, the digest of `d0` computed from the
event-built cache equals the digest computed by scanning the materialized
filesystem. -/
theorem handleChange_refines_scan_witness :
    Checksum 12 ((handleChanges emptyCC streamA).getD emptyCC) ["d0"]
      = ChecksumFS 12 ((writeChanges emptyFS streamA).getD emptyFS) ["d0"] :=
  handleChange_refines_scan streamA
    ((writeChanges emptyFS streamA).getD emptyFS)
    ((handleChanges emptyCC streamA).getD emptyCC)
    (by decide) (by rfl) (by rfl) 12 ["d0"]

end ContentHash

namespace ContentHash

theorem dec_enc : ∀ fuel : Nat,
    (∀ (t : Tree CLeaf) (rest : List Blob), sizeT t ≤ fuel →
       decT fuel (encT t ++ rest) = some (t, rest))
    ∧ (∀ (ch : Children CLeaf) (rest : List Blob), headOk rest = true →
       sizeCh ch ≤ fuel → decCh fuel (encCh ch ++ rest) = some (ch, rest)) := by
  intro fuel
  induction fuel with
  | zero =>
    constructor
    · intro t rest hs
      cases t with
      | leaf a =>
        rw [sizeT] at hs
        omega
      | dir ch =>
        rw [sizeT] at hs
        omega
    · intro ch rest hok hs
      cases ch with
      | nil =>
        rw [sizeCh] at hs
        omega
      | cons n t r =>
        rw [sizeCh] at hs
        omega
  | succ g ih =>
    constructor
    · intro t rest hs
      cases t with
      | leaf a =>
        cases a with
        | file d => rfl
        | symlink tg => rfl
      | dir ch =>
        show decT (g + 1) ((Blob.dirOpen :: (encCh ch ++ [Blob.dirClose])) ++ rest)
          = some (Tree.dir ch, rest)
        rw [List.cons_append, List.append_assoc, List.cons_append, List.nil_append]
        have hch : decCh g (encCh ch ++ (Blob.dirClose :: rest))
            = some (ch, Blob.dirClose :: rest) := by
          apply ih.2 ch (Blob.dirClose :: rest) rfl
          rw [sizeT] at hs
          omega
        show (match decCh g (encCh ch ++ (Blob.dirClose :: rest)) with
          | some (ch2, Blob.dirClose :: rest2) => some (Tree.dir ch2, rest2)
          | x => none) = some (Tree.dir ch, rest)
        rw [hch]
    · intro ch rest hok hs
      cases ch with
      | nil =>
        show decCh (g + 1) ([] ++ rest) = some (Children.nil, rest)
        rw [List.nil_append]
        cases rest with
        | nil => rfl
        | cons b bs =>
          cases b with
          | name n =>
            rw [headOk] at hok
            cases hok
          | file d => rfl
          | symlink t => rfl
          | dirOpen => rfl
          | dirClose => rfl
      | cons n t r =>
        show decCh (g + 1) ((Blob.name n :: (encT t ++ encCh r)) ++ rest)
          = some (Children.cons n t r, rest)
        rw [List.cons_append, List.append_assoc]
        have ht : decT g (encT t ++ (encCh r ++ rest)) = some (t, encCh r ++ rest) := by
          apply ih.1 t _
          rw [sizeCh] at hs
          omega
        have hr2 : decCh g (encCh r ++ rest) = some (r, rest) := by
          apply ih.2 r rest hok
          rw [sizeCh] at hs
          omega
        show (match decT g (encT t ++ (encCh r ++ rest)) with
          | some (t2, rest2) =>
            (match decCh g rest2 with
             | some (ch2, rest3) => some (Children.cons n t2 ch2, rest3)
             | none => none)
          | none => none) = some (Children.cons n t r, rest)
        rw [ht]
        show (match decCh g (encCh r ++ rest) with
          | some (ch2, rest3) => some (Children.cons n t ch2, rest3)
          | none => none) = some (Children.cons n t r, rest)
        rw [hr2]

/-- C7: the persistence round trip — saving a Cache Context's digest tree
into the durable store keyed by the reference's identity and reloading it
(after the in-memory state is gone) reconstructs the same tree, so
`Checksum` of a previously computed path returns the same digest as before
the restart. -/
theorem persistence_roundtrip (id : String) (t : Tree CLeaf) (s : Store)
    (f : Nat) (p : Path) (d : Digest)
    (h : Checksum f t p = .ok d) :
    loadTree id (saveTree id t s) = some t
    ∧ (loadTree id (saveTree id t s)).map (fun t2 => Checksum f t2 p)
        = some (.ok d) := by
  have hdec : decT (sizeT t) (encT t) = some (t, []) := by
    have h2 := (dec_enc (sizeT t)).1 t [] (Nat.le_refl _)
    rw [List.append_nil] at h2
    exact h2
  have hload : loadTree id (saveTree id t s) = some t := by
    rw [loadTree, saveTree]
    show (match storeGet ((id, (sizeT t, encT t)) :: s) id with
      | some (fuel, bs) =>
        (match decT fuel bs with
         | some (t2, []) => some t2
         | x => none)
      | none => none) = some t
    rw [storeGet, if_pos rfl]
    show (match decT (sizeT t) (encT t) with
      | some (t2, []) => some t2
      | x => none) = some t
    rw [hdec]
  refine ⟨hload, ?_⟩
  rw [hload]
  show some (Checksum f t p) = some (Except.ok d)
  rw [h]

/-- C7 (witness): the first test tree survives a save/load round trip
through the durable store, and the reloaded tree returns the digest of
`foo` computed before the restart. -/
theorem persistence_roundtrip_witness :
    loadTree ("ref0") (saveTree ("ref0") cTreeA []) = some cTreeA :=
  (persistence_roundtrip "ref0" cTreeA [] 12 ["foo"] (.file [0]) (by rfl)).1

end ContentHash
